import Mathlib

/-!
Verification of the hydralog commit-log storage engine: a shallow embedding of
the store (src/internal/log/store.go), the index (src/internal/log/index.go)
and the segment (the segment source file) with byte-exact big-endian framing,
the uint32/uint64 conversion semantics of Go, and the EndOfFile conditions of
the source.

Byte strings are lists of naturals.  Every conversion through a fixed-width Go
integer is modelled with an explicit reduction modulo 2^32 or 2^64: uint32
truncation of index arguments and of relative offsets, the uint64 wraparound
of the subtraction offset - baseOffset in segment.Read, and the int64
reinterpretation that feeds index.Read.  Size and offset counters are kept as
unbounded naturals: they only grow by the number of bytes actually written, so
a 64-bit wraparound of a counter itself would need more than 2^64 bytes of
appended data and no claim depends on that regime.

The record codec (proto.Marshal / proto.Unmarshal of api.Record) is generated
code outside the repository sources; it is modelled from the spec, which asks
for a deterministic encode/decode pair where the decoder receives exactly the
bytes the encoder produced.
-/

namespace HydraLog

/-- Big-endian 8-byte encoding of a value as a Go uint64
(binary.BigEndian.PutUint64 and binary.Write of a uint64); values at least
2^64 are truncated exactly as the Go conversion does. -/
def u64be (x : Nat) : List Nat :=
  [x / 2 ^ 56 % 256, x / 2 ^ 48 % 256, x / 2 ^ 40 % 256, x / 2 ^ 32 % 256,
   x / 2 ^ 24 % 256, x / 2 ^ 16 % 256, x / 2 ^ 8 % 256, x % 256]

/-- Big-endian 4-byte encoding of a value as a Go uint32
(binary.BigEndian.PutUint32). -/
def u32be (x : Nat) : List Nat :=
  [x / 2 ^ 24 % 256, x / 2 ^ 16 % 256, x / 2 ^ 8 % 256, x % 256]

/-- Big-endian decoding of a byte slice (binary.BigEndian.Uint64 / Uint32). -/
def beToNat (l : List Nat) : Nat :=
  l.foldl (fun a b => a * 256 + b) 0

/-- The Go slice expression l[a : a+n]. -/
def slice (l : List Nat) (a n : Nat) : List Nat :=
  (l.drop a).take n

/-- In-place write of the bytes bs into l starting at position a, as the mmap
writes of index.Write do. -/
def writeBytes (l : List Nat) (a : Nat) (bs : List Nat) : List Nat :=
  l.take a ++ bs ++ l.drop (a + bs.length)

/-- os.Truncate to m bytes: shrink the contents, or grow them with zero
padding. -/
def growTo (l : List Nat) (m : Nat) : List Nat :=
  l.take m ++ List.replicate (m - l.length) 0

/-- Unsigned 64-bit subtraction a - b in Go uint64 arithmetic, for operands
below 2^64. -/
def sub64 (a b : Nat) : Nat :=
  (a + (2 ^ 64 - b % 2 ^ 64)) % 2 ^ 64

/-- Reinterpretation of a uint64 value (below 2^64) as an int64, as in the Go
conversion int64(x). -/
def toInt64 (x : Nat) : Int :=
  if x < 2 ^ 63 then (x : Int) else (x : Int) - 2 ^ 64

/-- The only error the embedded operations produce themselves: io.EOF.  Other
I/O faults (failed syscalls) have no representation in a pure embedding. -/
inductive IOErr where
  | eof
  deriving DecidableEq

/-- Segment configuration: Config.Segment.MaxStoreBytes and
Config.Segment.MaxIndexBytes. -/
structure Config where
  maxStoreBytes : Nat
  maxIndexBytes : Nat
  deriving DecidableEq

/-- api.Record: the unit the segment ingests and emits; Offset is stamped by
segment.Append. -/
structure Record where
  Offset : Nat
  Value : List Nat
  deriving DecidableEq

/-- Modelled from the spec: proto.Marshal of api.Record (generated code under
api/v1, not part of the repository sources).  The spec requires only a
deterministic encode/decode pair where the decoder receives exactly the
encoded bytes; we encode the big-endian offset followed by the value bytes. -/
def Marshal (r : Record) : List Nat :=
  u64be r.Offset ++ r.Value

/-- Modelled from the spec: proto.Unmarshal, the inverse of Marshal. -/
def Unmarshal (p : List Nat) : Record :=
  { Offset := beToNat (p.take 8), Value := p.drop 8 }

/-- store (store.go): the file contents together with the size counter.  The
bufio writer is not modelled as separate state: every read path of the source
flushes it first, so data always denotes the flushed contents. -/
@[ext]
structure Store where
  data : List Nat
  size : Nat
  deriving DecidableEq

/-- newStore: the size is read from os.Stat. -/
def newStore (file : List Nat) : Store :=
  { data := file, size := file.length }

/-- store.Append: writes the 8-byte big-endian length prefix and then p at the
end of the file; returns the total bytes written, the starting position of the
entry (the size before the write), and the updated store. -/
def Store.Append (s : Store) (p : List Nat) : Nat × Nat × Store :=
  let pos := s.size
  let w := p.length + 8
  (w, pos, { data := s.data ++ u64be p.length ++ p, size := s.size + w })

/-- store.Read: ReadAt of the 8-byte length prefix at pos, then ReadAt of that
many bytes at pos + 8.  ReadAt returns io.EOF when the requested range is not
fully inside the file. -/
def Store.Read (s : Store) (pos : Nat) : Except IOErr (List Nat) :=
  if pos + 8 ≤ s.data.length then
    let len := beToNat (slice s.data pos 8)
    if pos + 8 + len ≤ s.data.length then .ok (slice s.data (pos + 8) len)
    else .error .eof
  else .error .eof

/-- index (index.go): the memory-mapped region and the logical size. -/
@[ext]
structure Index where
  mmap : List Nat
  size : Nat
  deriving DecidableEq

/-- newIndex: the size comes from os.Stat, then the file is grown (or shrunk)
to MaxIndexBytes by os.Truncate and memory-mapped. -/
def newIndex (file : List Nat) (c : Config) : Index :=
  { size := file.length, mmap := growTo file c.maxIndexBytes }

/-- The byte position of the entry index.Read(n) addresses: uint32(n) - or,
for the -1 sentinel, uint32(size/entWidth - 1) computed in uint64
arithmetic - times entWidth. -/
def Index.slotPos (i : Index) (n : Int) : Nat :=
  (if n = -1 then (i.size / 12 + (2 ^ 64 - 1)) % 2 ^ 64 % 2 ^ 32
   else (n % 2 ^ 32).toNat) * 12

/-- index.Read: EOF on an empty index, EOF when the addressed byte range lies
outside the logical size, and otherwise the decoded (relative offset,
position) pair. -/
def Index.Read (i : Index) (n : Int) : Except IOErr (Nat × Nat) :=
  if i.size = 0 then .error .eof
  else
    let pos := i.slotPos n
    if i.size < pos + 12 then .error .eof
    else .ok (beToNat (slice i.mmap pos 4), beToNat (slice i.mmap (pos + 4) 8))

/-- index.Write: EOF when the mapped region has no room for another entry,
otherwise the 12-byte entry is written at position size and size advances. -/
def Index.Write (i : Index) (off pos : Nat) : Except IOErr Index :=
  if i.mmap.length < i.size + 12 then .error .eof
  else .ok { mmap := writeBytes i.mmap i.size (u32be off ++ u64be pos),
             size := i.size + 12 }

/-- index.Close: the mmap is synced into the file and the file is truncated
back to the logical size; the result is the file contents left on disk. -/
def Index.Close (i : Index) : List Nat :=
  growTo i.mmap i.size

/-- segment: one store and one index under a shared base offset. -/
@[ext]
structure Segment where
  store : Store
  index : Index
  baseOffset : Nat
  nextOffset : Nat
  config : Config
  deriving DecidableEq

/-- newSegment: builds the store and the index from the contents of the two
files <baseOffset>.store and <baseOffset>.index and recovers nextOffset from
the last index entry (sentinel -1); baseOffset when the index read fails. -/
def newSegment (storeFile indexFile : List Nat) (baseOffset : Nat) (c : Config) : Segment :=
  let st := newStore storeFile
  let ix := newIndex indexFile c
  let next :=
    match ix.Read (-1) with
    | .error _ => baseOffset
    | .ok (off, _) => baseOffset + off + 1
  { store := st, index := ix, baseOffset := baseOffset, nextOffset := next, config := c }

/-- segment.Append: stamp the record with nextOffset, marshal it, append the
bytes to the store, write the uint32-truncated relative offset and the store
position to the index, then advance nextOffset and return the stamped offset.
On an index-write failure the store keeps the orphan bytes and nextOffset is
unchanged. -/
def Segment.Append (s : Segment) (r : Record) : Except IOErr Nat × Segment :=
  let cur := s.nextOffset
  let p := Marshal { r with Offset := cur }
  let res := s.store.Append p
  match s.index.Write (sub64 cur s.baseOffset % 2 ^ 32) res.2.1 with
  | .error e => (.error e, { s with store := res.2.2 })
  | .ok ix =>
    (.ok cur, { s with store := res.2.2, index := ix, nextOffset := s.nextOffset + 1 })

/-- segment.Read: the relative offset is offset - baseOffset in wrapping
uint64 arithmetic, reinterpreted as int64 for the index read; the store
position found there is read and the bytes deserialized. -/
def Segment.Read (s : Segment) (offset : Nat) : Except IOErr Record := do
  let e ← s.index.Read (toInt64 (sub64 offset s.baseOffset))
  let p ← s.store.Read e.2
  return Unmarshal p

/-- segment.IsMaxed. -/
def Segment.IsMaxed (s : Segment) : Bool :=
  decide (s.config.maxStoreBytes ≤ s.store.size) ||
  decide (s.config.maxIndexBytes ≤ s.index.size)

/-- nearestMultiple: the source's helper, carried verbatim; with unsigned j
the first branch is always taken. -/
def nearestMultiple (j k : Nat) : Nat :=
  if 0 ≤ j then j / k * k else (j - k + 1) / k * k

/-- Append a list of payloads in order, each wrapped in a fresh record (the
segment overwrites the Offset field), stopping at the first error. -/
def appendMany (s : Segment) (vs : List (List Nat)) : Except IOErr Segment :=
  match vs with
  | [] => .ok s
  | v :: tl =>
    match s.Append { Offset := 0, Value := v } with
    | (.ok _, s1) => appendMany s1 tl
    | (.error e, _) => .error e

/-- Total store bytes occupied by the marshalled records of the payloads rs:
8 bytes of store length prefix plus 8 bytes of marshalled offset plus the
payload, per record. -/
def weight : List (List Nat) → Nat
  | [] => 0
  | v :: tl => 16 + v.length + weight tl

/-- One store entry: length prefix plus marshalled record with offset A. -/
def frame (A : Nat) (v : List Nat) : List Nat :=
  u64be (Marshal { Offset := A, Value := v }).length ++ Marshal { Offset := A, Value := v }

/-- Store contents after appending the payloads rs at offsets A, A+1, ... -/
def storeData (A : Nat) : List (List Nat) → List Nat
  | [] => []
  | v :: tl => frame A v ++ storeData (A + 1) tl

/-- Index entry bytes for the payloads rs, starting at relative offset j and
store position p. -/
def entriesFrom (j p : Nat) : List (List Nat) → List Nat
  | [] => []
  | v :: tl => u32be j ++ u64be p ++ entriesFrom (j + 1) (p + (16 + v.length)) tl

/-- The segment state reached from a fresh segment with base offset B after
successfully appending the payloads rs. -/
def segOfList (B : Nat) (c : Config) (rs : List (List Nat)) : Segment :=
  { store := { data := storeData B rs, size := weight rs },
    index := { mmap := entriesFrom 0 0 rs ++ List.replicate (c.maxIndexBytes - 12 * rs.length) 0,
               size := 12 * rs.length },
    baseOffset := B, nextOffset := B + rs.length, config := c }

/-- Fold of store.Append over a list of payloads. -/
def appendAllStore (s : Store) (ps : List (List Nat)) : Store :=
  ps.foldl (fun st p => (st.Append p).2.2) s

/-- Sum over the payloads of 8 + length, the framed size of each store
entry. -/
def storeSum : List (List Nat) → Nat
  | [] => 0
  | p :: tl => (8 + p.length) + storeSum tl

/-- A configuration whose index holds exactly 2^32 + 1 entries. -/
def cBig : Config := { maxStoreBytes := 2 ^ 70, maxIndexBytes := 12 * (2 ^ 32 + 1) }

/-- 2^32 empty payloads followed by the payload [1]. -/
def rsCx : List (List Nat) := List.replicate (2 ^ 32) [] ++ [[1]]

/-- The segment state after appending rsCx to a fresh segment at base 0. -/
def cxState : Segment := segOfList 0 cBig rsCx

/-! ### List infrastructure -/

theorem take_pre {α : Type} (x y : List α) : (x ++ y).take x.length = x := by
  induction x with
  | nil => rfl
  | cons a tl ih => simp [List.length_cons, List.take_succ_cons, ih]

theorem drop_pre_add {α : Type} (x y : List α) (a : Nat) :
    (x ++ y).drop (x.length + a) = y.drop a := by
  induction x with
  | nil => simp
  | cons b tl ih =>
    have h : (b :: tl).length + a = (tl.length + a) + 1 := by
      simp [List.length_cons]; omega
    simp only [List.cons_append, h, List.drop_succ_cons]
    exact ih

theorem drop_pre {α : Type} (x y : List α) : (x ++ y).drop x.length = y := by
  have h := drop_pre_add x y 0
  rw [Nat.add_zero, List.drop_zero] at h
  exact h

theorem take_ge {α : Type} (l : List α) (m : Nat) (h : l.length ≤ m) :
    l.take m = l := by
  induction l generalizing m with
  | nil => simp
  | cons a tl ih =>
    cases m with
    | zero => simp at h
    | succ m =>
      simp only [List.take_succ_cons]
      rw [ih m (by simpa using h)]

theorem drop_replicate_nat (k m : Nat) :
    (List.replicate m (0 : Nat)).drop k = List.replicate (m - k) 0 := by
  induction k generalizing m with
  | zero => simp
  | succ k ih =>
    cases m with
    | zero => simp
    | succ m =>
      simp only [List.replicate_succ, List.drop_succ_cons]
      rw [ih m]
      congr 1
      omega

theorem slice_shift (x y : List Nat) (a n : Nat) :
    slice (x ++ y) (x.length + a) n = slice y a n := by
  simp [slice, drop_pre_add]

theorem slice_at (x y : List Nat) (n : Nat) :
    slice (x ++ y) x.length n = y.take n := by
  simp [slice, drop_pre]

/-! ### Byte encoding lemmas -/

theorem length_u64be (x : Nat) : (u64be x).length = 8 := rfl

theorem length_u32be (x : Nat) : (u32be x).length = 4 := rfl

theorem beToNat_u64be (x : Nat) : beToNat (u64be x) = x % 2 ^ 64 := by
  simp only [beToNat, u64be, List.foldl]
  omega

theorem beToNat_u32be (x : Nat) : beToNat (u32be x) = x % 2 ^ 32 := by
  simp only [beToNat, u32be, List.foldl]
  omega

theorem u32be_mod (x : Nat) : u32be (x % 2 ^ 32) = u32be x := by
  simp only [u32be, List.cons.injEq, and_true]
  refine ⟨?_, ?_, ?_, ?_⟩ <;> omega

theorem u64be_mod (x : Nat) : u64be (x % 2 ^ 64) = u64be x := by
  simp only [u64be, List.cons.injEq, and_true]
  refine ⟨?_, ?_, ?_, ?_, ?_, ?_, ?_, ?_⟩ <;> omega

theorem length_Marshal (r : Record) : (Marshal r).length = 8 + r.Value.length := by
  simp [Marshal, List.length_append, length_u64be]

theorem Unmarshal_Marshal (r : Record) (h : r.Offset < 2 ^ 64) :
    Unmarshal (Marshal r) = r := by
  obtain ⟨o, v⟩ := r
  simp only [Unmarshal, Marshal, Record.mk.injEq]
  constructor
  · have ht := take_pre (u64be o) v
    rw [length_u64be] at ht
    rw [ht, beToNat_u64be]
    exact Nat.mod_eq_of_lt h
  · have hd := drop_pre (u64be o) v
    rw [length_u64be] at hd
    exact hd

/-! ### Closed forms for the segment state -/

theorem length_frame (A : Nat) (v : List Nat) : (frame A v).length = 16 + v.length := by
  simp only [frame, List.length_append, length_u64be, length_Marshal]
  omega

theorem weight_snoc (rs : List (List Nat)) (v : List Nat) :
    weight (rs ++ [v]) = weight rs + (16 + v.length) := by
  induction rs with
  | nil => simp [weight]
  | cons w tl ih =>
    simp only [List.cons_append, weight, List.append_eq]
    rw [ih]
    omega

theorem length_storeData (A : Nat) (rs : List (List Nat)) :
    (storeData A rs).length = weight rs := by
  induction rs generalizing A with
  | nil => rfl
  | cons v tl ih =>
    simp only [storeData, weight, List.length_append, length_frame, ih]

theorem storeData_snoc (A : Nat) (rs : List (List Nat)) (v : List Nat) :
    storeData A (rs ++ [v]) = storeData A rs ++ frame (A + rs.length) v := by
  induction rs generalizing A with
  | nil => simp [storeData]
  | cons w tl ih =>
    simp only [List.cons_append, storeData, List.append_eq]
    rw [ih]
    have e1 : A + 1 + tl.length = A + (w :: tl).length := by
      simp only [List.length_cons]
      omega
    rw [e1]
    simp [List.append_assoc]

theorem length_entriesFrom (j p : Nat) (rs : List (List Nat)) :
    (entriesFrom j p rs).length = 12 * rs.length := by
  induction rs generalizing j p with
  | nil => rfl
  | cons v tl ih =>
    simp only [entriesFrom, List.length_append, length_u32be, length_u64be, ih,
      List.length_cons]
    omega

theorem entriesFrom_snoc (j p : Nat) (rs : List (List Nat)) (v : List Nat) :
    entriesFrom j p (rs ++ [v]) =
      entriesFrom j p rs ++ (u32be (j + rs.length) ++ u64be (p + weight rs)) := by
  induction rs generalizing j p with
  | nil => simp [entriesFrom, weight]
  | cons w tl ih =>
    simp only [List.cons_append, entriesFrom, List.append_eq]
    rw [ih]
    have e1 : j + 1 + tl.length = j + (w :: tl).length := by
      simp only [List.length_cons]
      omega
    have e2 : p + (16 + w.length) + weight tl = p + weight (w :: tl) := by
      simp only [weight]
      omega
    rw [e1, e2]
    simp [List.append_assoc]

theorem weight_split (rs : List (List Nat)) (i : Nat) (hi : i < rs.length) :
    weight rs = weight (rs.take i) + (16 + rs[i].length) + weight (rs.drop (i + 1)) := by
  induction rs generalizing i with
  | nil => simp at hi
  | cons v tl ih =>
    cases i with
    | zero => simp [weight]
    | succ i =>
      have hi2 : i < tl.length := by simpa using hi
      simp only [List.take_succ_cons, List.drop_succ_cons, List.getElem_cons_succ, weight]
      rw [ih i hi2]
      omega

theorem weight_take_le (rs : List (List Nat)) (i : Nat) (hi : i < rs.length) :
    weight (rs.take i) ≤ weight rs := by
  rw [weight_split rs i hi]
  omega

theorem storeData_split (A : Nat) (rs : List (List Nat)) (i : Nat) (hi : i < rs.length) :
    storeData A rs =
      storeData A (rs.take i) ++ frame (A + i) rs[i] ++
        storeData (A + i + 1) (rs.drop (i + 1)) := by
  induction rs generalizing A i with
  | nil => simp at hi
  | cons v tl ih =>
    cases i with
    | zero => simp [storeData]
    | succ i =>
      have hi2 : i < tl.length := by simpa using hi
      simp only [List.take_succ_cons, List.drop_succ_cons, List.getElem_cons_succ,
        storeData]
      rw [ih (A + 1) i hi2]
      have e1 : A + 1 + i = A + (i + 1) := by omega
      rw [e1]
      simp [List.append_assoc]

theorem entriesFrom_slice4 (rs : List (List Nat)) (Z : List Nat) (j p i : Nat)
    (hi : i < rs.length) :
    slice (entriesFrom j p rs ++ Z) (12 * i) 4 = u32be (j + i) := by
  induction rs generalizing Z j p i with
  | nil => simp at hi
  | cons v tl ih =>
    cases i with
    | zero =>
      have hsh : entriesFrom j p (v :: tl) ++ Z =
          u32be j ++ (u64be p ++ (entriesFrom (j + 1) (p + (16 + v.length)) tl ++ Z)) := by
        simp [entriesFrom, List.append_assoc]
      rw [hsh]
      simp only [Nat.mul_zero, Nat.add_zero, slice, List.drop_zero]
      have h4 : (4 : Nat) = (u32be j).length := (length_u32be j).symm
      rw [h4, take_pre]
    | succ i =>
      have hi2 : i < tl.length := by simpa using hi
      have hsh : entriesFrom j p (v :: tl) ++ Z =
          (u32be j ++ u64be p) ++
            (entriesFrom (j + 1) (p + (16 + v.length)) tl ++ Z) := by
        simp [entriesFrom, List.append_assoc]
      rw [hsh]
      have h12 : 12 * (i + 1) = (u32be j ++ u64be p).length + 12 * i := by
        simp only [List.length_append, length_u32be, length_u64be]
        omega
      rw [h12, slice_shift, ih Z (j + 1) (p + (16 + v.length)) i hi2]
      congr 1
      omega

theorem entriesFrom_slice8 (rs : List (List Nat)) (Z : List Nat) (j p i : Nat)
    (hi : i < rs.length) :
    slice (entriesFrom j p rs ++ Z) (12 * i + 4) 8 = u64be (p + weight (rs.take i)) := by
  induction rs generalizing Z j p i with
  | nil => simp at hi
  | cons v tl ih =>
    cases i with
    | zero =>
      have hsh : entriesFrom j p (v :: tl) ++ Z =
          u32be j ++ (u64be p ++ (entriesFrom (j + 1) (p + (16 + v.length)) tl ++ Z)) := by
        simp [entriesFrom, List.append_assoc]
      rw [hsh]
      have h4 : 12 * 0 + 4 = (u32be j).length := by simp [length_u32be]
      rw [h4, slice_at]
      have h8 : (8 : Nat) = (u64be p).length := (length_u64be p).symm
      rw [h8, take_pre]
      simp [weight]
    | succ i =>
      have hi2 : i < tl.length := by simpa using hi
      have hsh : entriesFrom j p (v :: tl) ++ Z =
          (u32be j ++ u64be p) ++
            (entriesFrom (j + 1) (p + (16 + v.length)) tl ++ Z) := by
        simp [entriesFrom, List.append_assoc]
      rw [hsh]
      have h12 : 12 * (i + 1) + 4 = (u32be j ++ u64be p).length + (12 * i + 4) := by
        simp only [List.length_append, length_u32be, length_u64be]
        omega
      rw [h12, slice_shift, ih Z (j + 1) (p + (16 + v.length)) i hi2]
      congr 1
      simp only [List.take_succ_cons, weight]
      omega

/-! ### Arithmetic of the Go conversions -/

theorem sub64_add (B j : Nat) (hB : B < 2 ^ 64) : sub64 (B + j) B = j % 2 ^ 64 := by
  unfold sub64
  rw [Nat.mod_eq_of_lt hB]
  have h : B + j + (2 ^ 64 - B) = j + 2 ^ 64 := by omega
  rw [h, Nat.add_mod_right]

theorem toInt64_small (x : Nat) (h : x < 2 ^ 63) : toInt64 x = (x : Int) := by
  unfold toInt64
  rw [if_pos h]

/-! ### Evaluation lemmas for reads -/

theorem store_read_frame (pre p post : List Nat) (sz : Nat) (hp : p.length < 2 ^ 64) :
    Store.Read { data := pre ++ (u64be p.length ++ p) ++ post, size := sz }
      pre.length = .ok p := by
  have hlen : (pre ++ (u64be p.length ++ p) ++ post).length
      = pre.length + (8 + (p.length + post.length)) := by
    simp only [List.length_append, length_u64be]
    omega
  have hslice8 : slice (pre ++ (u64be p.length ++ p) ++ post) pre.length 8
      = u64be p.length := by
    have ha : pre ++ (u64be p.length ++ p) ++ post
        = pre ++ (u64be p.length ++ (p ++ post)) := by
      simp [List.append_assoc]
    rw [ha, slice_at]
    have h8 : (8 : Nat) = (u64be p.length).length := (length_u64be p.length).symm
    rw [h8, take_pre]
  have hslicep : slice (pre ++ (u64be p.length ++ p) ++ post) (pre.length + 8) p.length
      = p := by
    have ha : pre ++ (u64be p.length ++ p) ++ post
        = (pre ++ u64be p.length) ++ (p ++ post) := by
      simp [List.append_assoc]
    have hl : pre.length + 8 = (pre ++ u64be p.length).length := by
      simp [List.length_append, length_u64be]
    rw [ha, hl, slice_at, take_pre]
  unfold Store.Read
  rw [if_pos (by rw [hlen]; omega)]
  simp only [hslice8, beToNat_u64be, Nat.mod_eq_of_lt hp]
  rw [if_pos (by rw [hlen]; omega), hslicep]

theorem index_read_entry (ix : Index) (n : Int) (h0 : ix.size ≠ 0)
    (hguard : ix.slotPos n + 12 ≤ ix.size) :
    ix.Read n = .ok (beToNat (slice ix.mmap (ix.slotPos n) 4),
                     beToNat (slice ix.mmap (ix.slotPos n + 4) 8)) := by
  unfold Index.Read
  rw [if_neg h0, if_neg (by omega)]

theorem slotPos_ofNat (ix : Index) (i : Nat) (h : i < 2 ^ 32) :
    ix.slotPos (i : Int) = 12 * i := by
  unfold Index.slotPos
  rw [if_neg (by omega)]
  have he : ((i : Int) % 2 ^ 32).toNat = i := by omega
  rw [he]
  omega

theorem slotPos_last (ix : Index) (e : Nat) (hsz : ix.size = 12 * e)
    (h1 : 1 ≤ e) (h2 : e ≤ 2 ^ 32) :
    ix.slotPos (-1) = 12 * (e - 1) := by
  unfold Index.slotPos
  rw [if_pos rfl, hsz]
  have hdiv : 12 * e / 12 = e := by omega
  rw [hdiv]
  have hmod : (e + (2 ^ 64 - 1)) % 2 ^ 64 % 2 ^ 32 = e - 1 := by omega
  rw [hmod]
  omega

/-! ### Component views of segOfList -/

theorem segOfList_base (B : Nat) (c : Config) (rs : List (List Nat)) :
    (segOfList B c rs).baseOffset = B := rfl

theorem segOfList_next (B : Nat) (c : Config) (rs : List (List Nat)) :
    (segOfList B c rs).nextOffset = B + rs.length := rfl

theorem segOfList_config (B : Nat) (c : Config) (rs : List (List Nat)) :
    (segOfList B c rs).config = c := rfl

theorem segOfList_store_data (B : Nat) (c : Config) (rs : List (List Nat)) :
    (segOfList B c rs).store.data = storeData B rs := rfl

theorem segOfList_store_size (B : Nat) (c : Config) (rs : List (List Nat)) :
    (segOfList B c rs).store.size = weight rs := rfl

theorem segOfList_index_mmap (B : Nat) (c : Config) (rs : List (List Nat)) :
    (segOfList B c rs).index.mmap
      = entriesFrom 0 0 rs ++ List.replicate (c.maxIndexBytes - 12 * rs.length) 0 := rfl

theorem segOfList_index_size (B : Nat) (c : Config) (rs : List (List Nat)) :
    (segOfList B c rs).index.size = 12 * rs.length := rfl

/-! ### Reading back a record of segOfList -/

theorem bindOk {ε α β : Type} (a : α) (f : α → Except ε β) :
    (Except.ok a >>= f : Except ε β) = f a := rfl

theorem store_read_frame2 (pre post : List Nat) (A : Nat) (v : List Nat) (sz : Nat)
    (hp : 8 + v.length < 2 ^ 64) :
    Store.Read { data := pre ++ frame A v ++ post, size := sz } pre.length
      = .ok (Marshal { Offset := A, Value := v }) :=
  store_read_frame pre (Marshal { Offset := A, Value := v }) post sz
    (by rw [length_Marshal]; show 8 + v.length < 2 ^ 64; omega)

theorem segOfList_index_read (B : Nat) (c : Config) (rs : List (List Nat)) (i : Nat)
    (hi : i < rs.length) (h32 : i < 2 ^ 32) (hw : weight rs < 2 ^ 64) :
    (segOfList B c rs).index.Read (i : Int) = .ok (i, weight (rs.take i)) := by
  have h0 : (segOfList B c rs).index.size ≠ 0 := by
    rw [segOfList_index_size]
    omega
  have hslot : (segOfList B c rs).index.slotPos (i : Int) = 12 * i :=
    slotPos_ofNat _ i h32
  have hguard : (segOfList B c rs).index.slotPos (i : Int) + 12
      ≤ (segOfList B c rs).index.size := by
    rw [hslot, segOfList_index_size]
    omega
  rw [index_read_entry _ _ h0 hguard, hslot, segOfList_index_mmap]
  rw [entriesFrom_slice4 rs _ 0 0 i hi, entriesFrom_slice8 rs _ 0 0 i hi]
  rw [beToNat_u32be, beToNat_u64be]
  have h1 : (0 + i) % 2 ^ 32 = i := by omega
  have h2 : (0 + weight (rs.take i)) % 2 ^ 64 = weight (rs.take i) := by
    have := weight_take_le rs i hi
    omega
  rw [h1, h2]

theorem segOfList_store_read (B : Nat) (c : Config) (rs : List (List Nat)) (i : Nat)
    (hi : i < rs.length) (hw : weight rs < 2 ^ 64) :
    (segOfList B c rs).store.Read (weight (rs.take i))
      = .ok (Marshal { Offset := B + i, Value := rs[i] }) := by
  have hs : (segOfList B c rs).store = { data := storeData B rs, size := weight rs } := rfl
  rw [hs, storeData_split B rs i hi]
  have hpre : weight (rs.take i) = (storeData B (rs.take i)).length :=
    (length_storeData _ _).symm
  rw [hpre]
  exact store_read_frame2 _ _ _ _ _ (by have := weight_split rs i hi; omega)

theorem segOfList_read (B : Nat) (c : Config) (rs : List (List Nat)) (i : Nat)
    (hi : i < rs.length) (h32 : i < 2 ^ 32) (hBn : B + rs.length ≤ 2 ^ 64)
    (hw : weight rs < 2 ^ 64) :
    (segOfList B c rs).Read (B + i) = .ok { Offset := B + i, Value := rs[i] } := by
  have hB : B < 2 ^ 64 := by omega
  have hrel : sub64 (B + i) B = i := by
    rw [sub64_add B i hB]
    omega
  have hint : toInt64 i = (i : Int) := toInt64_small i (by omega)
  unfold Segment.Read
  rw [segOfList_base, hrel, hint]
  rw [segOfList_index_read B c rs i hi h32 hw, bindOk]
  simp only []
  rw [segOfList_store_read B c rs i hi hw, bindOk]
  rw [Unmarshal_Marshal _ (by show B + i < 2 ^ 64; omega)]
  rfl

/-! ### The append step on segOfList -/

theorem store_append_fst (s : Store) (p : List Nat) : (s.Append p).1 = p.length + 8 := rfl

theorem store_append_pos (s : Store) (p : List Nat) : (s.Append p).2.1 = s.size := rfl

theorem store_append_store (s : Store) (p : List Nat) :
    (s.Append p).2.2
      = { data := s.data ++ u64be p.length ++ p, size := s.size + (p.length + 8) } := rfl

theorem index_write_seg (B : Nat) (c : Config) (rs : List (List Nat)) (v : List Nat)
    (hroom : 12 * (rs.length + 1) ≤ c.maxIndexBytes) :
    (segOfList B c rs).index.Write (rs.length % 2 ^ 32) (weight rs)
      = .ok (segOfList B c (rs ++ [v])).index := by
  have hlen : (segOfList B c rs).index.mmap.length = c.maxIndexBytes := by
    rw [segOfList_index_mmap]
    simp only [List.length_append, length_entriesFrom, List.length_replicate]
    omega
  have hlen12 : (u32be (rs.length % 2 ^ 32) ++ u64be (weight rs)).length = 12 := by
    simp [List.length_append, length_u32be, length_u64be]
  have htake : (entriesFrom 0 0 rs
        ++ List.replicate (c.maxIndexBytes - 12 * rs.length) 0).take (12 * rs.length)
      = entriesFrom 0 0 rs := by
    have hE : (12 : Nat) * rs.length = (entriesFrom 0 0 rs).length :=
      (length_entriesFrom 0 0 rs).symm
    rw [hE, take_pre]
  have hdrop : (entriesFrom 0 0 rs
        ++ List.replicate (c.maxIndexBytes - 12 * rs.length) 0).drop (12 * rs.length + 12)
      = List.replicate (c.maxIndexBytes - 12 * rs.length - 12) 0 := by
    have hE : (12 : Nat) * rs.length = (entriesFrom 0 0 rs).length :=
      (length_entriesFrom 0 0 rs).symm
    rw [hE, drop_pre_add, drop_replicate_nat]
  unfold Index.Write
  rw [if_neg (by rw [hlen, segOfList_index_size]; omega)]
  have hmm : writeBytes (segOfList B c rs).index.mmap (segOfList B c rs).index.size
        (u32be (rs.length % 2 ^ 32) ++ u64be (weight rs))
      = (segOfList B c (rs ++ [v])).index.mmap := by
    rw [segOfList_index_mmap, segOfList_index_size, segOfList_index_mmap]
    unfold writeBytes
    rw [hlen12, htake, hdrop, entriesFrom_snoc]
    have hC : c.maxIndexBytes - 12 * rs.length - 12
        = c.maxIndexBytes - 12 * (rs ++ [v]).length := by
      simp only [List.length_append, List.length_cons, List.length_nil]
      omega
    rw [hC, u32be_mod]
    simp [List.append_assoc]
  have hsz : (segOfList B c rs).index.size + 12 = (segOfList B c (rs ++ [v])).index.size := by
    rw [segOfList_index_size, segOfList_index_size]
    simp only [List.length_append, List.length_cons, List.length_nil]
    omega
  rw [hmm, hsz]

theorem append_seg (B : Nat) (c : Config) (rs : List (List Nat)) (r : Record)
    (hB : B < 2 ^ 64) (hroom : 12 * (rs.length + 1) ≤ c.maxIndexBytes) :
    (segOfList B c rs).Append r
      = (.ok (B + rs.length), segOfList B c (rs ++ [r.Value])) := by
  obtain ⟨ro, rv⟩ := r
  unfold Segment.Append
  simp only [segOfList_next, segOfList_base, store_append_pos, segOfList_store_size]
  have hsub : sub64 (B + rs.length) B % 2 ^ 32 = rs.length % 2 ^ 32 := by
    rw [sub64_add B rs.length hB]
    exact Nat.mod_mod_of_dvd rs.length ⟨2 ^ 32, by norm_num⟩
  rw [hsub]
  rw [index_write_seg B c rs rv hroom]
  simp only []
  refine Prod.ext rfl ?_
  show ({ segOfList B c rs with
      store := ((segOfList B c rs).store.Append
        (Marshal { Offset := B + rs.length, Value := rv })).2.2,
      index := (segOfList B c (rs ++ [rv])).index,
      nextOffset := B + rs.length + 1 } : Segment)
    = segOfList B c (rs ++ [rv])
  rw [store_append_store]
  unfold segOfList
  simp only [Segment.mk.injEq]
  refine ⟨?_, trivial, trivial, ?_, trivial⟩
  · simp only [Store.mk.injEq, segOfList_store_data, segOfList_store_size]
    constructor
    · rw [storeData_snoc]
      simp [frame, List.append_assoc]
    · rw [weight_snoc, length_Marshal]
      show weight rs + (8 + rv.length + 8) = weight rs + (16 + rv.length)
      omega
  · simp only [List.length_append, List.length_cons, List.length_nil]
    omega

/-! ### Fresh segments and sequences of appends -/

theorem newSegment_nil (B : Nat) (c : Config) : newSegment [] [] B c = segOfList B c [] := by
  have hix : newIndex [] c = (segOfList B c ([] : List (List Nat))).index := by
    apply Index.ext
    · show growTo [] c.maxIndexBytes
        = entriesFrom 0 0 [] ++ List.replicate (c.maxIndexBytes - 12 * 0) 0
      unfold growTo
      simp [entriesFrom]
    · rfl
  have hread : (segOfList B c ([] : List (List Nat))).index.Read (-1) = .error .eof := by
    unfold Index.Read
    rw [if_pos (show (segOfList B c ([] : List (List Nat))).index.size = 0 from rfl)]
  unfold newSegment
  simp only []
  rw [hix, hread]
  rfl

theorem appendMany_seg (B : Nat) (c : Config) (vs rs : List (List Nat))
    (hB : B < 2 ^ 64) (hroom : 12 * (rs.length + vs.length) ≤ c.maxIndexBytes) :
    appendMany (segOfList B c rs) vs = .ok (segOfList B c (rs ++ vs)) := by
  induction vs generalizing rs with
  | nil => simp [appendMany]
  | cons v tl ih =>
    simp only [List.length_cons] at hroom
    unfold appendMany
    rw [append_seg B c rs { Offset := 0, Value := v } hB (by omega)]
    simp only []
    have hroom2 : 12 * ((rs ++ [v]).length + tl.length) ≤ c.maxIndexBytes := by
      simp only [List.length_append, List.length_cons, List.length_nil]
      omega
    rw [ih (rs ++ [v]) hroom2]
    simp [List.append_assoc]

theorem appendMany_fresh (B : Nat) (c : Config) (rs : List (List Nat))
    (hB : B < 2 ^ 64) (hroom : 12 * rs.length ≤ c.maxIndexBytes) :
    appendMany (newSegment [] [] B c) rs = .ok (segOfList B c rs) := by
  rw [newSegment_nil]
  have h := appendMany_seg B c rs [] hB (by simp only [List.length_nil]; omega)
  simpa using h

/-! ### Close and reopen -/

theorem segOfList_mmap_len (B : Nat) (c : Config) (rs : List (List Nat))
    (hroom : 12 * rs.length ≤ c.maxIndexBytes) :
    (segOfList B c rs).index.mmap.length = c.maxIndexBytes := by
  rw [segOfList_index_mmap]
  simp only [List.length_append, length_entriesFrom, List.length_replicate]
  omega

theorem index_close_seg (B : Nat) (c : Config) (rs : List (List Nat))
    (hroom : 12 * rs.length ≤ c.maxIndexBytes) :
    Index.Close (segOfList B c rs).index = entriesFrom 0 0 rs := by
  unfold Index.Close growTo
  rw [segOfList_index_size, segOfList_mmap_len B c rs hroom, segOfList_index_mmap]
  have htake : (entriesFrom 0 0 rs
        ++ List.replicate (c.maxIndexBytes - 12 * rs.length) 0).take (12 * rs.length)
      = entriesFrom 0 0 rs := by
    have hE : (12 : Nat) * rs.length = (entriesFrom 0 0 rs).length :=
      (length_entriesFrom 0 0 rs).symm
    rw [hE, take_pre]
  rw [htake]
  have hz : 12 * rs.length - c.maxIndexBytes = 0 := by omega
  rw [hz]
  simp

theorem newIndex_entries (c : Config) (rs : List (List Nat))
    (hroom : 12 * rs.length ≤ c.maxIndexBytes) :
    newIndex (entriesFrom 0 0 rs) c = (segOfList 0 c rs).index := by
  apply Index.ext
  · show (entriesFrom 0 0 rs).take c.maxIndexBytes
        ++ List.replicate (c.maxIndexBytes - (entriesFrom 0 0 rs).length) 0
      = entriesFrom 0 0 rs ++ List.replicate (c.maxIndexBytes - 12 * rs.length) 0
    rw [take_ge _ _ (by rw [length_entriesFrom]; omega), length_entriesFrom]
  · exact length_entriesFrom 0 0 rs

theorem segOfList_index_indep (B : Nat) (c : Config) (rs : List (List Nat)) :
    (segOfList B c rs).index = (segOfList 0 c rs).index := rfl

theorem newStore_seg (B : Nat) (c : Config) (rs : List (List Nat)) :
    newStore (storeData B rs) = (segOfList B c rs).store := by
  apply Store.ext
  · rfl
  · exact length_storeData B rs

theorem segOfList_read_last (B : Nat) (c : Config) (rs : List (List Nat))
    (h1 : 1 ≤ rs.length) (hn : rs.length ≤ 2 ^ 32) :
    (segOfList B c rs).index.Read (-1)
      = .ok ((rs.length - 1) % 2 ^ 32,
             beToNat (slice (segOfList B c rs).index.mmap
               (12 * (rs.length - 1) + 4) 8)) := by
  have hsz : (segOfList B c rs).index.size = 12 * rs.length := segOfList_index_size B c rs
  have hslot : (segOfList B c rs).index.slotPos (-1) = 12 * (rs.length - 1) :=
    slotPos_last _ rs.length hsz h1 hn
  have h0 : (segOfList B c rs).index.size ≠ 0 := by
    rw [hsz]
    omega
  have hguard : (segOfList B c rs).index.slotPos (-1) + 12
      ≤ (segOfList B c rs).index.size := by
    rw [hslot, hsz]
    omega
  rw [index_read_entry _ _ h0 hguard, hslot]
  rw [segOfList_index_mmap, entriesFrom_slice4 rs _ 0 0 (rs.length - 1) (by omega)]
  rw [beToNat_u32be]
  have hz : (0 + (rs.length - 1)) % 2 ^ 32 = (rs.length - 1) % 2 ^ 32 := by omega
  rw [hz]

theorem reopen_eq (B : Nat) (c : Config) (rs : List (List Nat))
    (hn : rs.length ≤ 2 ^ 32) (hroom : 12 * rs.length ≤ c.maxIndexBytes) :
    newSegment (segOfList B c rs).store.data (Index.Close (segOfList B c rs).index) B c
      = segOfList B c rs := by
  rw [index_close_seg B c rs hroom, segOfList_store_data]
  unfold newSegment
  simp only []
  rw [newIndex_entries c rs hroom, ← segOfList_index_indep B c rs, newStore_seg B c rs]
  rcases rs with _ | ⟨v, tl⟩
  · have hread : (segOfList B c ([] : List (List Nat))).index.Read (-1) = .error .eof := by
      unfold Index.Read
      rw [if_pos (show (segOfList B c ([] : List (List Nat))).index.size = 0 from rfl)]
    rw [hread]
    rfl
  · have h1 : 1 ≤ (v :: tl).length := by simp
    rw [segOfList_read_last B c (v :: tl) h1 hn]
    simp only []
    have hoff : B + ((v :: tl).length - 1) % 2 ^ 32 + 1 = B + (v :: tl).length := by
      simp only [List.length_cons] at hn ⊢
      omega
    rw [hoff]
    rfl

/-! ### Out-of-range reads -/

theorem index_read_oob (ix : Index) (n : Int) (hguard : ix.size < ix.slotPos n + 12) :
    ix.Read n = .error .eof := by
  unfold Index.Read
  by_cases h0 : ix.size = 0
  · rw [if_pos h0]
  · rw [if_neg h0, if_pos hguard]

theorem slotPos_int (ix : Index) (n : Int) (hn : n ≠ -1) :
    ix.slotPos n = (n % 2 ^ 32).toNat * 12 := by
  unfold Index.slotPos
  rw [if_neg hn]

theorem segOfList_read_oob (B : Nat) (c : Config) (rs : List (List Nat)) (A : Nat)
    (hlow : B + rs.length ≤ A) (hhigh : A < B + 2 ^ 32) (hB64 : B + 2 ^ 32 ≤ 2 ^ 64) :
    (segOfList B c rs).Read A = .error .eof := by
  have hA : A = B + (A - B) := by omega
  rw [hA]
  have hB : B < 2 ^ 64 := by omega
  have hrel : sub64 (B + (A - B)) B = A - B := by
    rw [sub64_add B (A - B) hB]
    omega
  have hint : toInt64 (A - B) = ((A - B : Nat) : Int) := toInt64_small _ (by omega)
  unfold Segment.Read
  rw [segOfList_base, hrel, hint]
  have hix : (segOfList B c rs).index.Read ((A - B : Nat) : Int) = .error .eof := by
    apply index_read_oob
    rw [slotPos_int _ _ (by omega), segOfList_index_size]
    have ht : (((A - B : Nat) : Int) % 2 ^ 32).toNat = A - B := by omega
    rw [ht]
    omega
  rw [hix]
  rfl

/-! ### Sizes under operations -/

theorem index_write_ok_size (i : Index) (off pos : Nat) (ix : Index)
    (h : i.Write off pos = .ok ix) : ix.size = i.size + 12 ∧ ix.mmap.length = i.mmap.length
      ∧ i.size + 12 ≤ i.mmap.length := by
  unfold Index.Write at h
  by_cases hg : i.mmap.length < i.size + 12
  · rw [if_pos hg] at h
    exact absurd h (by simp)
  · rw [if_neg hg] at h
    injection h with h
    subst h
    refine ⟨rfl, ?_, by omega⟩
    show (writeBytes i.mmap i.size (u32be off ++ u64be pos)).length = i.mmap.length
    unfold writeBytes
    simp only [List.length_append, List.length_take, List.length_drop, length_u32be,
      length_u64be]
    omega

theorem appendAllStore_size (ps : List (List Nat)) (s : Store) :
    (appendAllStore s ps).size = s.size + storeSum ps := by
  induction ps generalizing s with
  | nil =>
    show s.size = s.size + storeSum []
    simp [storeSum]
  | cons p tl ih =>
    show (appendAllStore ((s.Append p).2.2) tl).size = s.size + storeSum (p :: tl)
    rw [ih]
    show (s.size + (p.length + 8)) + storeSum tl = s.size + ((8 + p.length) + storeSum tl)
    omega

/-! ### The concrete aliasing scenario at 2^32 + 1 entries -/

theorem rsCx_length : rsCx.length = 2 ^ 32 + 1 := by
  unfold rsCx
  rw [List.length_append, List.length_replicate]
  rfl

theorem rsCx_cons :
    rsCx = ([] : List Nat) :: (List.replicate (2 ^ 32 - 1) ([] : List Nat) ++ [[1]]) := by
  unfold rsCx
  have h : (2 ^ 32 : Nat) = (2 ^ 32 - 1) + 1 := by norm_num
  rw [h, List.replicate_succ]
  rfl

theorem rsCx_at_alias : rsCx.drop 4294967296 = [[1]] := by
  unfold rsCx
  have h : (4294967296 : Nat) = (List.replicate (2 ^ 32) ([] : List Nat)).length := by
    rw [List.length_replicate]
    norm_num
  rw [h, drop_pre]

theorem cx_appendMany :
    appendMany (newSegment [] [] 0 cBig) rsCx = .ok (segOfList 0 cBig rsCx) := by
  apply appendMany_fresh 0 cBig rsCx (by norm_num)
  rw [rsCx_length]
  exact Nat.le_refl _

theorem storeData_cons (A : Nat) (v : List Nat) (tl : List (List Nat)) :
    storeData A (v :: tl) = frame A v ++ storeData (A + 1) tl := by
  simp only [storeData]

theorem cx_index_read :
    (segOfList 0 cBig rsCx).index.Read ((4294967296 : Nat) : Int) = .ok (0, 0) := by
  have hslot : (segOfList 0 cBig rsCx).index.slotPos ((4294967296 : Nat) : Int) = 0 := by
    rw [slotPos_int _ _ (by omega)]
    have h : (((4294967296 : Nat) : Int) % 2 ^ 32).toNat = 0 := by omega
    rw [h]
  have h0 : (segOfList 0 cBig rsCx).index.size ≠ 0 := by
    rw [segOfList_index_size, rsCx_length]
    norm_num
  have hguard : (segOfList 0 cBig rsCx).index.slotPos ((4294967296 : Nat) : Int) + 12
      ≤ (segOfList 0 cBig rsCx).index.size := by
    rw [hslot, segOfList_index_size, rsCx_length]
    norm_num
  rw [index_read_entry _ _ h0 hguard, hslot]
  have hlen0 : 0 < rsCx.length := by
    rw [rsCx_length]
    norm_num
  have h4 : slice (segOfList 0 cBig rsCx).index.mmap 0 4 = u32be 0 :=
    entriesFrom_slice4 rsCx
      (List.replicate (cBig.maxIndexBytes - 12 * rsCx.length) 0) 0 0 0 hlen0
  have h8 : slice (segOfList 0 cBig rsCx).index.mmap 4 8 = u64be 0 :=
    entriesFrom_slice8 rsCx
      (List.replicate (cBig.maxIndexBytes - 12 * rsCx.length) 0) 0 0 0 hlen0
  have e4 : (0 : Nat) + 4 = 4 := rfl
  rw [e4, h4, h8, beToNat_u32be, beToNat_u64be]
  rfl

theorem cx_read :
    (segOfList 0 cBig rsCx).Read 4294967296 = .ok { Offset := 0, Value := [] } := by
  have hrel : sub64 4294967296 0 = 4294967296 := by decide
  have hint : toInt64 4294967296 = ((4294967296 : Nat) : Int) :=
    toInt64_small _ (by norm_num)
  unfold Segment.Read
  rw [segOfList_base, hrel, hint, cx_index_read, bindOk]
  simp only []
  have hst : (segOfList 0 cBig rsCx).store.Read 0
      = .ok (Marshal { Offset := 0, Value := [] }) := by
    have hdata : (segOfList 0 cBig rsCx).store.data = frame 0 [] ++ storeData 1 (List.replicate (2 ^ 32 - 1) ([] : List Nat) ++ [[1]]) := by
      rw [segOfList_store_data, rsCx_cons, storeData_cons, Nat.zero_add]
    have hs : (segOfList 0 cBig rsCx).store = { data := frame 0 [] ++ storeData 1 (List.replicate (2 ^ 32 - 1) ([] : List Nat) ++ [[1]]), size := (segOfList 0 cBig rsCx).store.size } := by
      apply Store.ext
      · exact hdata
      · rfl
    rw [hs]
    exact store_read_frame2 []
      (storeData 1 (List.replicate (2 ^ 32 - 1) ([] : List Nat) ++ [[1]])) 0 []
      ((segOfList 0 cBig rsCx).store.size) (by norm_num)
  rw [hst, bindOk]
  rw [Unmarshal_Marshal _ (by norm_num)]
  rfl

/-! ### Reopen after the aliasing scenario -/

theorem newSegment_next_of_read (storeFile indexFile : List Nat) (B : Nat) (c : Config)
    (off pos : Nat) (h : (newIndex indexFile c).Read (-1) = .ok (off, pos)) :
    (newSegment storeFile indexFile B c).nextOffset = B + off + 1 := by
  unfold newSegment
  simp only []
  rw [h]

theorem slotPos_neg1 (ix : Index) :
    ix.slotPos (-1) = (ix.size / 12 + (2 ^ 64 - 1)) % 2 ^ 64 % 2 ^ 32 * 12 := by
  unfold Index.slotPos
  rw [if_pos rfl]

theorem cx_reopen :
    (newSegment (segOfList 0 cBig rsCx).store.data
      (Index.Close (segOfList 0 cBig rsCx).index) 0 cBig).nextOffset = 1 := by
  have hroom : 12 * rsCx.length ≤ cBig.maxIndexBytes := by
    rw [rsCx_length]
    exact Nat.le_refl _
  have hslot : (segOfList 0 cBig rsCx).index.slotPos (-1) = 0 := by
    rw [slotPos_neg1, segOfList_index_size, rsCx_length]
    omega
  have h0 : (segOfList 0 cBig rsCx).index.size ≠ 0 := by
    rw [segOfList_index_size, rsCx_length]
    norm_num
  have hguard : (segOfList 0 cBig rsCx).index.slotPos (-1) + 12
      ≤ (segOfList 0 cBig rsCx).index.size := by
    rw [hslot, segOfList_index_size, rsCx_length]
    norm_num
  have hlen0 : 0 < rsCx.length := by
    rw [rsCx_length]
    norm_num
  have h4 : slice (segOfList 0 cBig rsCx).index.mmap 0 4 = u32be 0 :=
    entriesFrom_slice4 rsCx
      (List.replicate (cBig.maxIndexBytes - 12 * rsCx.length) 0) 0 0 0 hlen0
  have hread : (newIndex (entriesFrom 0 0 rsCx) cBig).Read (-1)
      = .ok (0, beToNat (slice (segOfList 0 cBig rsCx).index.mmap 4 8)) := by
    rw [newIndex_entries cBig rsCx hroom, ← segOfList_index_indep 0 cBig rsCx]
    rw [index_read_entry _ _ h0 hguard, hslot]
    have e4 : (0 : Nat) + 4 = 4 := rfl
    rw [e4, h4, beToNat_u32be]
    rfl
  rw [index_close_seg 0 cBig rsCx hroom]
  rw [newSegment_next_of_read _ _ 0 cBig _ _ hread]

/-! ### Per-call shape of segment.Append -/

theorem append_next_cases (s : Segment) (r : Record) :
    ((s.Append r).1 = .error .eof ∧ (s.Append r).2.nextOffset = s.nextOffset
      ∧ (s.Append r).2.index = s.index)
    ∨ ((s.Append r).1 = .ok s.nextOffset
      ∧ (s.Append r).2.nextOffset = s.nextOffset + 1) := by
  unfold Segment.Append
  simp only []
  cases hM : s.index.Write (sub64 s.nextOffset s.baseOffset % 2 ^ 32)
      ((s.store.Append (Marshal { r with Offset := s.nextOffset })).2.1) with
  | error e =>
    left
    cases e
    exact ⟨rfl, rfl, rfl⟩
  | ok ix =>
    right
    exact ⟨rfl, rfl⟩

theorem append_store_size (s : Segment) (r : Record) :
    (s.Append r).2.store.size
      = s.store.size + ((Marshal { r with Offset := s.nextOffset }).length + 8) := by
  unfold Segment.Append
  simp only []
  cases hM : s.index.Write (sub64 s.nextOffset s.baseOffset % 2 ^ 32)
      ((s.store.Append (Marshal { r with Offset := s.nextOffset })).2.1) with
  | error e => rfl
  | ok ix => rfl

theorem append_index_size (s : Segment) (r : Record) :
    s.index.size ≤ (s.Append r).2.index.size := by
  unfold Segment.Append
  simp only []
  cases hM : s.index.Write (sub64 s.nextOffset s.baseOffset % 2 ^ 32)
      ((s.store.Append (Marshal { r with Offset := s.nextOffset })).2.1) with
  | error e => exact Nat.le_refl _
  | ok ix =>
    show s.index.size ≤ ix.size
    have h := (index_write_ok_size _ _ _ _ hM).1
    omega

theorem append_config (s : Segment) (r : Record) : (s.Append r).2.config = s.config := by
  unfold Segment.Append
  simp only []
  cases hM : s.index.Write (sub64 s.nextOffset s.baseOffset % 2 ^ 32)
      ((s.store.Append (Marshal { r with Offset := s.nextOffset })).2.1) with
  | error e => rfl
  | ok ix => rfl

theorem index_read_ok_bound (ix : Index) (n : Int) (a b : Nat)
    (h : ix.Read n = .ok (a, b)) : ix.slotPos n + 12 ≤ ix.size := by
  unfold Index.Read at h
  by_cases h0 : ix.size = 0
  · rw [if_pos h0] at h
    exact absurd h (by simp)
  · rw [if_neg h0] at h
    by_cases hg : ix.size < ix.slotPos n + 12
    · rw [if_pos hg] at h
      exact absurd h (by simp)
    · omega

theorem length_take_of_le {α : Type} (l : List α) (i : Nat) (h : i ≤ l.length) :
    (l.take i).length = i := by
  rw [List.length_take]
  omega

/-! ## Claims -/

/-- C1 (amended): for payloads r_0..r_{n-1} appended successfully to a fresh
segment with base offset B (the index has room for all n entries, offsets stay
below 2^64 and the store stays below 2^64 bytes), read(B + i) returns a record
whose payload equals r_i for every i < n with i < 2^32.  The restriction
i < 2^32 is forced by the uint32 truncation of relative offsets, see the
counterexample. -/
theorem claim1_roundtrip_amended (B : Nat) (c : Config) (rs : List (List Nat)) (i : Nat)
    (hi : i < rs.length) (h32 : i < 2 ^ 32) (hBn : B + rs.length ≤ 2 ^ 64)
    (hroom : 12 * rs.length ≤ c.maxIndexBytes) (hw : weight rs < 2 ^ 64) :
    (appendMany (newSegment [] [] B c) rs).bind
      (fun s => (s.Read (B + i)).map Record.Value) = .ok rs[i] := by
  rw [appendMany_fresh B c rs (by omega) hroom]
  show ((segOfList B c rs).Read (B + i)).map Record.Value = .ok rs[i]
  rw [segOfList_read B c rs i hi h32 hBn hw]
  rfl

/-- Witness for C1 (amended): two payloads appended at base offset 7; reading
offset 8 returns the second payload. -/
theorem claim1_roundtrip_witness :
    (1 < [[5], [6, 6]].length ∧ 1 < 2 ^ 32 ∧ 7 + [[5], [6, 6]].length ≤ 2 ^ 64
      ∧ 12 * [[5], [6, 6]].length ≤ 100 ∧ weight [[5], [6, 6]] < 2 ^ 64)
    ∧ (appendMany (newSegment [] [] 7 (Config.mk 1000 100)) [[5], [6, 6]]).bind
        (fun s => (s.Read (7 + 1)).map Record.Value) = .ok [6, 6] := by
  constructor
  · refine ⟨by decide, by decide, by decide, by decide, by decide⟩
  · exact claim1_roundtrip_amended 7 (Config.mk 1000 100) [[5], [6, 6]] 1
      (by decide) (by decide) (by decide) (by decide) (by decide)

/-- C1 counterexample: with an index large enough for 2^32 + 1 entries, all
2^32 + 1 appends succeed on a fresh segment with base offset 0, the payload at
position 2^32 is [1], yet read(0 + 2^32) returns the payload of entry 0 (the
empty payload): uint32(2^32) = 0 aliases the index slot.  This refutes the
claim as stated, for n = 2^32 + 1 and i = 2^32. -/
theorem claim1_counterexample :
    appendMany (newSegment [] [] 0 cBig) rsCx = .ok (segOfList 0 cBig rsCx)
    ∧ rsCx.drop 4294967296 = [[1]]
    ∧ ((segOfList 0 cBig rsCx).Read 4294967296).map Record.Value = .ok []
    ∧ ([] : List Nat) ≠ [1] := by
  refine ⟨cx_appendMany, rsCx_at_alias, ?_, by decide⟩
  rw [cx_read]
  rfl

/-- C3 (amended): on a segment holding n records from a fresh segment at base
offset B, read(A) returns EndOfFile for every A in [next_offset, B + 2^32).
Offsets below base_offset or at distance 2^32 or more alias back into range
through the uint64 wraparound of A - B and the uint32 truncation, see the
counterexample. -/
theorem claim3_read_out_of_range_amended (B : Nat) (c : Config) (rs : List (List Nat))
    (A : Nat) (hlow : B + rs.length ≤ A) (hhigh : A < B + 2 ^ 32)
    (hB64 : B + 2 ^ 32 ≤ 2 ^ 64) (hroom : 12 * rs.length ≤ c.maxIndexBytes) :
    (appendMany (newSegment [] [] B c) rs).bind (fun s => s.Read A) = .error .eof := by
  rw [appendMany_fresh B c rs (by omega) hroom]
  show (segOfList B c rs).Read A = .error .eof
  exact segOfList_read_oob B c rs A hlow hhigh hB64

/-- Witness for C3 (amended): two records at base offset 10; reading offset 12
(relative offset 2) returns EndOfFile. -/
theorem claim3_read_out_of_range_witness :
    (10 + [[1], [2]].length ≤ 12 ∧ 12 < 10 + 2 ^ 32 ∧ 10 + 2 ^ 32 ≤ 2 ^ 64
      ∧ 12 * [[1], [2]].length ≤ 36)
    ∧ (appendMany (newSegment [] [] 10 (Config.mk 1000 36)) [[1], [2]]).bind
        (fun s => s.Read 12) = .error .eof := by
  constructor
  · refine ⟨by decide, by decide, by decide, by decide⟩
  · exact claim3_read_out_of_range_amended 10 (Config.mk 1000 36) [[1], [2]] 12
      (by decide) (by decide) (by decide) (by decide)

/-- C3 counterexample: base offset 16 with one appended record; 15 lies outside
[base_offset, next_offset), but read(15) computes 15 - 16 = 2^64 - 1 in uint64,
reinterpreted as int64 it is the sentinel -1, so the index returns the last
entry and read returns the record - not an error. -/
theorem claim3_counterexample :
    (15 : Nat) < 16
    ∧ (appendMany (newSegment [] [] 16 (Config.mk 1000 36)) [[104, 105]]).bind
        (fun s => s.Read 15) = .ok { Offset := 16, Value := [104, 105] } := by
  constructor
  · decide
  · rfl

/-- C4 (amended): after close() of a segment holding n records (n at most
2^32, with room, bounded offsets and store), constructing a new segment from
the same files with the same base offset yields exactly the same segment
state - in particular the same next_offset - and every record remains
readable at its offset.  For n > 2^32 recovery truncates, see the
counterexample. -/
theorem claim4_reopen_amended (B : Nat) (c : Config) (rs : List (List Nat))
    (hn : rs.length ≤ 2 ^ 32) (hBn : B + rs.length ≤ 2 ^ 64) (hB : B < 2 ^ 64)
    (hroom : 12 * rs.length ≤ c.maxIndexBytes) (hw : weight rs < 2 ^ 64) :
    appendMany (newSegment [] [] B c) rs = .ok (segOfList B c rs)
    ∧ newSegment (segOfList B c rs).store.data (Index.Close (segOfList B c rs).index) B c
        = segOfList B c rs
    ∧ (newSegment (segOfList B c rs).store.data
        (Index.Close (segOfList B c rs).index) B c).nextOffset
        = (segOfList B c rs).nextOffset
    ∧ ∀ i (hi : i < rs.length),
        (newSegment (segOfList B c rs).store.data
          (Index.Close (segOfList B c rs).index) B c).Read (B + i)
          = .ok { Offset := B + i, Value := rs[i] } := by
  refine ⟨appendMany_fresh B c rs hB hroom, reopen_eq B c rs hn hroom, ?_, ?_⟩
  · rw [reopen_eq B c rs hn hroom]
  · intro i hi
    rw [reopen_eq B c rs hn hroom]
    exact segOfList_read B c rs i hi (by omega) hBn hw

/-- Witness for C4 (amended): one record at base offset 0; the reopened
segment has the same next_offset. -/
theorem claim4_reopen_witness :
    ([[7]].length ≤ 2 ^ 32 ∧ 0 + [[7]].length ≤ 2 ^ 64 ∧ 0 < 2 ^ 64
      ∧ 12 * [[7]].length ≤ 36 ∧ weight [[7]] < 2 ^ 64)
    ∧ (newSegment (segOfList 0 (Config.mk 1000 36) [[7]]).store.data
        (Index.Close (segOfList 0 (Config.mk 1000 36) [[7]]).index) 0
        (Config.mk 1000 36)).nextOffset
        = (segOfList 0 (Config.mk 1000 36) [[7]]).nextOffset := by
  constructor
  · refine ⟨by decide, by decide, by decide, by decide, by decide⟩
  · exact (claim4_reopen_amended 0 (Config.mk 1000 36) [[7]]
      (by decide) (by decide) (by decide) (by decide) (by decide)).2.2.1

/-- C4 counterexample: after 2^32 + 1 successful appends at base offset 0 the
segment has next_offset = 2^32 + 1, but reconstructing a segment from the
closed files yields next_offset = 1: the last index entry stores relative
offset uint32(2^32) = 0, so recovery computes 0 + 0 + 1. -/
theorem claim4_counterexample :
    appendMany (newSegment [] [] 0 cBig) rsCx = .ok (segOfList 0 cBig rsCx)
    ∧ (segOfList 0 cBig rsCx).nextOffset = 2 ^ 32 + 1
    ∧ (newSegment (segOfList 0 cBig rsCx).store.data
        (Index.Close (segOfList 0 cBig rsCx).index) 0 cBig).nextOffset = 1
    ∧ (1 : Nat) ≠ 2 ^ 32 + 1 := by
  refine ⟨cx_appendMany, ?_, cx_reopen, by decide⟩
  rw [segOfList_next, rsCx_length]
  rfl

/-- C10 (amended): every record successfully appended at absolute offset
A = B + i with i < 2^32 is stamped with Offset = A, and read(A) returns a
record whose Offset field equals A.  For i at or above 2^32 the read aliases
to entry i mod 2^32, see the counterexample. -/
theorem claim10_offset_field_amended (B : Nat) (c : Config) (rs : List (List Nat))
    (i : Nat) (hi : i < rs.length) (h32 : i < 2 ^ 32) (hBn : B + rs.length ≤ 2 ^ 64)
    (hroom : 12 * rs.length ≤ c.maxIndexBytes) (hw : weight rs < 2 ^ 64) :
    (appendMany (newSegment [] [] B c) rs).bind
      (fun s => (s.Read (B + i)).map Record.Offset) = .ok (B + i) := by
  rw [appendMany_fresh B c rs (by omega) hroom]
  show ((segOfList B c rs).Read (B + i)).map Record.Offset = .ok (B + i)
  rw [segOfList_read B c rs i hi h32 hBn hw]
  rfl

/-- Witness for C10 (amended): the record appended at offset 8 reads back with
Offset field 8. -/
theorem claim10_offset_field_witness :
    (1 < [[5], [6, 6]].length ∧ 1 < 2 ^ 32 ∧ 7 + [[5], [6, 6]].length ≤ 2 ^ 64
      ∧ 12 * [[5], [6, 6]].length ≤ 100 ∧ weight [[5], [6, 6]] < 2 ^ 64)
    ∧ (appendMany (newSegment [] [] 7 (Config.mk 1000 100)) [[5], [6, 6]]).bind
        (fun s => (s.Read (7 + 1)).map Record.Offset) = .ok 8 := by
  constructor
  · refine ⟨by decide, by decide, by decide, by decide, by decide⟩
  · exact claim10_offset_field_amended 7 (Config.mk 1000 100) [[5], [6, 6]] 1
      (by decide) (by decide) (by decide) (by decide) (by decide)

/-- C10 counterexample: the record appended at absolute offset 2^32 (it was
stamped Offset = 2^32) reads back with Offset field 0, because read(2^32)
aliases to index entry 0. -/
theorem claim10_counterexample :
    appendMany (newSegment [] [] 0 cBig) rsCx = .ok (segOfList 0 cBig rsCx)
    ∧ (segOfList 0 cBig rsCx).nextOffset = 2 ^ 32 + 1
    ∧ ((segOfList 0 cBig rsCx).Read 4294967296).map Record.Offset = .ok 0
    ∧ (0 : Nat) ≠ 4294967296 := by
  refine ⟨cx_appendMany, ?_, ?_, by decide⟩
  · rw [segOfList_next, rsCx_length]
    rfl
  · rw [cx_read]
    rfl

/-- C2: append returns the pre-call next_offset; next_offset advances by
exactly one when the index write succeeds and is unchanged on an index-write
failure (the only failure representable in the embedding: marshalling is total
and store I/O faults have no pure representation); hence the i-th successful
append on a fresh segment with base offset B returns B + i. -/
theorem claim2_append_offsets :
    (∀ (s : Segment) (r : Record),
      (∀ off, (s.Append r).1 = .ok off
        → off = s.nextOffset ∧ (s.Append r).2.nextOffset = s.nextOffset + 1)
      ∧ ((s.Append r).1 = .error .eof → (s.Append r).2.nextOffset = s.nextOffset))
    ∧ (∀ (B : Nat) (c : Config) (rs : List (List Nat)) (i : Nat) (r : Record),
        i < rs.length → B < 2 ^ 64 → 12 * rs.length ≤ c.maxIndexBytes →
        (appendMany (newSegment [] [] B c) (rs.take i)).map (fun s => (s.Append r).1)
          = .ok (.ok (B + i))) := by
  constructor
  · intro s r
    rcases append_next_cases s r with ⟨he, hn, _⟩ | ⟨ho, hn⟩
    · constructor
      · intro off hoff
        rw [he] at hoff
        exact absurd hoff (by simp)
      · intro _
        exact hn
    · constructor
      · intro off hoff
        rw [ho] at hoff
        injection hoff with h2
        exact ⟨h2.symm, hn⟩
      · intro herr
        rw [ho] at herr
        exact absurd herr (by simp)
  · intro B c rs i r hi hB hroom
    have hlen : (rs.take i).length = i := length_take_of_le rs i (by omega)
    have hroomT : 12 * (rs.take i).length ≤ c.maxIndexBytes := by
      rw [hlen]
      omega
    rw [appendMany_fresh B c (rs.take i) hB hroomT]
    show (.ok (((segOfList B c (rs.take i)).Append r).1)
        : Except IOErr (Except IOErr Nat)) = .ok (.ok (B + i))
    rw [append_seg B c (rs.take i) r hB (by rw [hlen]; omega)]
    rw [hlen]

/-- Witness for C2: on a fresh segment at base offset 3 the first append
returns 3 and next_offset becomes 4. -/
theorem claim2_append_offsets_witness :
    ((newSegment [] [] 3 (Config.mk 100 100)).Append { Offset := 0, Value := [9] }).1
      = .ok 3
    ∧ ((newSegment [] [] 3 (Config.mk 100 100)).Append
        { Offset := 0, Value := [9] }).2.nextOffset = 3 + 1 := by
  constructor
  · rfl
  · have h := (claim2_append_offsets.1 (newSegment [] [] 3 (Config.mk 100 100))
      { Offset := 0, Value := [9] }).1 3 (by rfl)
    rw [h.2]
    decide

/-- C5: store.Append returns written byte count len(p) + 8 and the pre-write
size as position, and grows size by len(p) + 8; a fresh store after appending
payloads p_0..p_{n-1} has size equal to the sum of 8 + len(p_i). -/
theorem claim5_store_append_size :
    ∀ (st : Store) (p : List Nat) (ps : List (List Nat)),
      (st.Append p).1 = p.length + 8
      ∧ (st.Append p).2.1 = st.size
      ∧ (st.Append p).2.2.size = st.size + (p.length + 8)
      ∧ (appendAllStore (newStore []) ps).size = storeSum ps := by
  intro st p ps
  refine ⟨rfl, rfl, rfl, ?_⟩
  have h := appendAllStore_size ps (newStore [])
  rw [h]
  have h0 : (newStore ([] : List Nat)).size = 0 := rfl
  rw [h0, Nat.zero_add]

/-- C6 (amended): for an index holding e = size/12 entries (well-formed size,
e at most 2^32): read(n) returns EndOfFile for e ≤ n < 2^32 and for
e - 2^32 ≤ n < -1; read(-1) returns EndOfFile when the index is empty and
otherwise returns entry e - 1.  Arguments outside those ranges alias into the
valid range through the uint32 conversion, see the counterexample. -/
theorem claim6_index_bounds_amended (ix : Index) (e : Nat) (n : Int)
    (hsz : ix.size = 12 * e) (he : e ≤ 2 ^ 32) :
    ((e : Int) ≤ n → n < 2 ^ 32 → ix.Read n = .error .eof)
    ∧ ((e : Int) - 2 ^ 32 ≤ n → n < -1 → ix.Read n = .error .eof)
    ∧ (e = 0 → ix.Read (-1) = .error .eof)
    ∧ (0 < e → ix.Read (-1)
        = .ok (beToNat (slice ix.mmap (12 * (e - 1)) 4),
               beToNat (slice ix.mmap (12 * (e - 1) + 4) 8))) := by
  refine ⟨?_, ?_, ?_, ?_⟩
  · intro h1 h2
    apply index_read_oob
    rw [slotPos_int _ _ (by omega), hsz]
    omega
  · intro h1 h2
    apply index_read_oob
    rw [slotPos_int _ _ (by omega), hsz]
    omega
  · intro h0
    unfold Index.Read
    rw [if_pos (by omega)]
  · intro h1
    have hslot := slotPos_last ix e hsz h1 he
    have h0 : ix.size ≠ 0 := by
      rw [hsz]
      omega
    have hguard : ix.slotPos (-1) + 12 ≤ ix.size := by
      rw [hslot, hsz]
      omega
    rw [index_read_entry _ _ h0 hguard, hslot]

/-- Witness for C6 (amended): an index with one entry (size 12): read(5)
returns EndOfFile and read(-1) returns entry 0. -/
theorem claim6_index_bounds_witness :
    (Index.mk (List.replicate 24 0) 12).Read 5 = .error .eof
    ∧ (Index.mk (List.replicate 24 0) 12).Read (-1) = .ok (0, 0) := by
  have h := claim6_index_bounds_amended (Index.mk (List.replicate 24 0) 12) 1 5
    (by decide) (by decide)
  constructor
  · exact h.1 (by decide) (by decide)
  · have h4 := h.2.2.2 (by decide)
    rw [h4]
    rfl

/-- C6 counterexample: on an index with one entry, read(-2^32) and read(2^32)
both return entry 0 successfully - not EndOfFile - although -2^32 < -1 and
2^32 ≥ e: the int64 argument is truncated to uint32, so ±2^32 alias to slot
0.  This refutes the claim as stated. -/
theorem claim6_counterexample :
    ((-(2 ^ 32) : Int) < -1
      ∧ (Index.mk (List.replicate 12 0) 12).Read (-(2 ^ 32)) = .ok (0, 0))
    ∧ ((1 : Int) ≤ 2 ^ 32
      ∧ (Index.mk (List.replicate 12 0) 12).Read (2 ^ 32) = .ok (0, 0)) := by
  refine ⟨⟨by decide, by rfl⟩, by decide, by rfl⟩

/-- C7: is_maxed is true exactly when store.size ≥ max_store_bytes or
index.size ≥ max_index_bytes, and it is monotone: append never decreases
either size or changes the configuration, so once maxed a segment stays
maxed (reads do not modify the state in the embedding). -/
theorem claim7_is_maxed :
    ∀ (s : Segment) (r : Record),
      (s.IsMaxed = true
        ↔ (s.config.maxStoreBytes ≤ s.store.size ∨ s.config.maxIndexBytes ≤ s.index.size))
      ∧ s.store.size ≤ (s.Append r).2.store.size
      ∧ s.index.size ≤ (s.Append r).2.index.size
      ∧ (s.Append r).2.config = s.config
      ∧ (s.IsMaxed = true → (s.Append r).2.IsMaxed = true) := by
  have hiff : ∀ t : Segment, (t.IsMaxed = true
      ↔ (t.config.maxStoreBytes ≤ t.store.size ∨ t.config.maxIndexBytes ≤ t.index.size)) := by
    intro t
    unfold Segment.IsMaxed
    simp [Bool.or_eq_true, decide_eq_true_eq]
  intro s r
  have h1 : s.store.size ≤ (s.Append r).2.store.size := by
    rw [append_store_size s r]
    omega
  have h2 := append_index_size s r
  refine ⟨hiff s, h1, h2, append_config s r, ?_⟩
  intro hm
  rw [hiff ((s.Append r).2), append_config s r]
  rw [hiff s] at hm
  rcases hm with h | h
  · left
    omega
  · right
    omega

/-- Witness for C7: a segment whose max_store_bytes is 0 is maxed from the
start and remains maxed after an append. -/
theorem claim7_is_maxed_witness :
    (newSegment [] [] 0 (Config.mk 0 100)).IsMaxed = true
    ∧ ((newSegment [] [] 0 (Config.mk 0 100)).Append
        { Offset := 0, Value := [7] }).2.IsMaxed = true := by
  constructor
  · decide
  · exact (claim7_is_maxed (newSegment [] [] 0 (Config.mk 0 100))
      { Offset := 0, Value := [7] }).2.2.2.2 (by decide)

/-- C8: for every j and nonzero k, nearestMultiple j k returns j / k * k, the
largest multiple of k not exceeding j; the negative branch is dead because the
comparison 0 ≤ j always holds for an unsigned j, which is why the first
conjunct holds unconditionally for every j. -/
theorem claim8_nearest_multiple :
    ∀ (j k : Nat), k ≠ 0 →
      nearestMultiple j k = j / k * k
      ∧ k ∣ nearestMultiple j k
      ∧ nearestMultiple j k ≤ j
      ∧ (∀ m, k ∣ m → m ≤ j → m ≤ nearestMultiple j k) := by
  intro j k hk
  have he : nearestMultiple j k = j / k * k := by
    unfold nearestMultiple
    rw [if_pos (Nat.zero_le j)]
  refine ⟨he, ?_, ?_, ?_⟩
  · rw [he]
    exact ⟨j / k, Nat.mul_comm (j / k) k⟩
  · rw [he]
    exact Nat.div_mul_le_self j k
  · intro m hm hmj
    rw [he]
    obtain ⟨t, rfl⟩ := hm
    have ht : t ≤ j / k := by
      rw [Nat.le_div_iff_mul_le (Nat.pos_of_ne_zero hk)]
      rw [Nat.mul_comm]
      exact hmj
    have h2 : k * t ≤ k * (j / k) := Nat.mul_le_mul_left k ht
    rw [Nat.mul_comm (j / k) k]
    exact h2

/-- Witness for C8: nearestMultiple 13 5 = 10. -/
theorem claim8_nearest_multiple_witness :
    (5 : Nat) ≠ 0 ∧ nearestMultiple 13 5 = 10 ∧ nearestMultiple 13 5 ≤ 13 := by
  refine ⟨by decide, ?_, (claim8_nearest_multiple 13 5 (by decide)).2.2.1⟩
  have h := (claim8_nearest_multiple 13 5 (by decide)).1
  rw [h]

/-- C9: the mapped region always has length max_index_bytes; if the file at
creation is at most max_index_bytes then size ≤ len(mmap) holds initially,
every successful Read addresses a 12-byte range inside the mapped region,
and every successful Write addresses a 12-byte range inside the mapped region
and preserves size ≤ len(mmap): the guards size = 0, size < pos + 12 and
len(mmap) < size + 12 make out-of-bounds access unreachable. -/
theorem claim9_index_safety :
    ∀ (file : List Nat) (c : Config) (ix ix2 : Index) (n : Int) (off pos a b : Nat),
      (newIndex file c).mmap.length = c.maxIndexBytes
      ∧ (file.length ≤ c.maxIndexBytes
          → (newIndex file c).size ≤ (newIndex file c).mmap.length)
      ∧ (ix.size ≤ ix.mmap.length → ix.Read n = .ok (a, b)
          → ix.slotPos n + 12 ≤ ix.mmap.length)
      ∧ (ix.size ≤ ix.mmap.length → ix.Write off pos = .ok ix2
          → ix.size + 12 ≤ ix.mmap.length ∧ ix2.size ≤ ix2.mmap.length
            ∧ ix2.mmap.length = ix.mmap.length) := by
  intro file c ix ix2 n off pos a b
  have hm : (newIndex file c).mmap.length = c.maxIndexBytes := by
    show (growTo file c.maxIndexBytes).length = c.maxIndexBytes
    unfold growTo
    simp only [List.length_append, List.length_take, List.length_replicate]
    omega
  refine ⟨hm, ?_, ?_, ?_⟩
  · intro h
    rw [hm]
    exact h
  · intro hle hok
    have hb := index_read_ok_bound ix n a b hok
    omega
  · intro hle hok
    have h := index_write_ok_size ix off pos ix2 hok
    refine ⟨h.2.2, ?_, h.2.1⟩
    omega

/-- Witness for C9: a 24-byte map holding one 12-byte entry; reading entry 0
succeeds and its byte range [0, 12) lies inside the 24-byte map. -/
theorem claim9_index_safety_witness :
    (Index.mk (List.replicate 24 0) 12).Read 0 = .ok (0, 0)
    ∧ (Index.mk (List.replicate 24 0) 12).slotPos 0 + 12
        ≤ (Index.mk (List.replicate 24 0) 12).mmap.length := by
  constructor
  · rfl
  · exact (claim9_index_safety (List.replicate 12 0) (Config.mk 10 24)
      (Index.mk (List.replicate 24 0) 12) (Index.mk (List.replicate 24 0) 12)
      0 0 0 0 0).2.2.1 (by decide) (by rfl)

end HydraLog
